import Mathlib

/-!
Verification of the text-layout routines of `generate_training_pdf.py`.

The embedded code is the greedy word-wrapping routine `draw_wrapped_text`
(source lines 159-181) and the truncation loop of `draw_text` (source
lines 140-154).  The canvas string-width metric `self.c.stringWidth(s, font,
size)` is abstracted as a pure function `measure : String → Int`; the canvas
drawing calls are modelled by recording, for each emitted line, the string
and the `(x, y)` position at which `drawString` is invoked.
-/

/-- Whitespace test used by Python's `str.split()` with no separator
(ASCII whitespace characters). -/
def pyIsSpace (c : Char) : Bool :=
  c = ' ' || c = '\t' || c = '\n' || c = '\r' || c = '\x0b' || c = '\x0c'

/-- Accumulator pass of Python's `str.split()`: scan the characters,
collecting the current word in reverse in `acc`, committing it at each
whitespace character and at the end. -/
def splitAux : List Char → List Char → List (List Char)
  | [], acc => if acc = [] then [] else [acc.reverse]
  | c :: cs, acc =>
    if pyIsSpace c then
      if acc = [] then splitAux cs [] else acc.reverse :: splitAux cs []
    else
      splitAux cs (c :: acc)

/-- Python's `text.split()` (no argument): split on runs of whitespace,
discarding empty pieces.  Used at source line 164. -/
def pySplit (s : String) : List String :=
  (splitAux s.data []).map String.mk

/-- The accumulation loop of `draw_wrapped_text` (source lines 166-176):
`cur` is `current_line`; for each word the candidate
`current_line + (" " if current_line else "") + word` is measured, accepted
into the accumulator when it fits, and otherwise the non-empty accumulator
is committed as a line and the word starts a fresh accumulator.  Returns
the committed lines, including the final non-empty accumulator. -/
def wrapWords (measure : String → Int) (maxW : Int) : List String → String → List String
  | [], cur => if cur = "" then [] else [cur]
  | w :: ws, cur =>
    if measure (cur ++ (if cur = "" then "" else " ") ++ w) ≤ maxW then
      wrapWords measure maxW ws (cur ++ (if cur = "" then "" else " ") ++ w)
    else if cur = "" then
      wrapWords measure maxW ws w
    else
      cur :: wrapWords measure maxW ws w

/-- The lines laid out by `draw_wrapped_text` for a given text:
`text.split()` fed through the accumulation loop with an empty initial
accumulator. -/
def wrapLines (measure : String → Int) (maxW : Int) (text : String) : List String :=
  wrapWords measure maxW (pySplit text) ""

/-- The emission loop of `draw_wrapped_text` (source lines 177-179):
`self.c.drawString(x, y, line)` for each line, decreasing `y` by `leading`
after each; records each `(line, x, y)` triple and the final `y`. -/
def drawLines (x leading : Int) : List String → Int → List (String × Int × Int) × Int
  | [], y => ([], y)
  | l :: ls, y =>
    let r := drawLines x leading ls (y - leading)
    ((l, x, y) :: r.1, r.2)

/-- Observable result of one `draw_wrapped_text` call: the drawn strings
with their positions, and the returned cursor value. -/
structure WrapOutput where
  placed : List (String × Int × Int)
  endY : Int
deriving DecidableEq

/-- `draw_wrapped_text(text, x, y, max_width, ..., leading)` (source lines
159-181): wrap the words of `text` and emit the lines downward from `y`,
returning the final cursor. -/
def draw_wrapped_text (measure : String → Int) (text : String) (x y maxW leading : Int) :
    WrapOutput :=
  let d := drawLines x leading (wrapLines measure maxW text) y
  ⟨d.1, d.2⟩

/-- The sequence of line strings drawn by a `draw_wrapped_text` call. -/
def outLines (o : WrapOutput) : List String :=
  o.placed.map (fun p => p.1)

/-- Concatenation, in order, of the whitespace-split words of a list of
lines. -/
def lineWords (ls : List String) : List String :=
  (ls.map pySplit).flatten

/-- One iteration of the truncation loop of `draw_text` (source line 147):
`text = text[:-4] + '...'`. -/
def truncStep (text : String) : String :=
  String.mk (text.data.take (text.length - 4)) ++ "..."

/-- The truncation loop of `draw_text` (source lines 146-147): while the
text measures wider than `max_width` and is longer than three characters,
replace its last four characters by `"..."`. -/
def truncateText (measure : String → Int) (maxW : Int) (text : String) : String :=
  if h : maxW < measure text ∧ 3 < text.length then
    truncateText measure maxW (truncStep text)
  else
    text
termination_by text.length
decreasing_by
  have hd : text.length = text.data.length := rfl
  have e : (truncStep text).length = (text.data.take (text.length - 4)).length + 3 :=
    String.length_append (String.mk (text.data.take (text.length - 4))) "..."
  rw [e, List.length_take]
  omega

/-- A concrete string-width metric used to exercise the routines: the
number of characters of the string. -/
def lenMeasure (s : String) : Int :=
  s.length

/-- Measure used in the counterexamples: behaves like a width of 1 on every
string except `"a b"`, which it maps to a negative width. -/
def dipMeasure (s : String) : Int :=
  if s = "a b" then -5 else 1

/-- Measure used in the counterexamples: gives the single word `"b"` a
huge width but every other string a width of 1. -/
def spikeMeasure (s : String) : Int :=
  if s = "b" then 100 else 1

/-- Normalization described by the specification: every run of consecutive
whitespace collapsed to a single space.  The flag records whether the
previous character belonged to a whitespace run. -/
def collapseAux : Bool → List Char → List Char
  | _, [] => []
  | prevSpace, c :: cs =>
    if pyIsSpace c then
      if prevSpace then collapseAux true cs
      else ' ' :: collapseAux true cs
    else
      c :: collapseAux false cs

/-- Every run of consecutive whitespace collapsed to a single space: first
half of the comparison text for the whitespace-run claim. -/
def collapseRuns (l : List Char) : List Char :=
  collapseAux false l

/-- Removal of leading and trailing whitespace: second half of the
comparison text for the whitespace-run claim. -/
def trimWS (l : List Char) : List Char :=
  ((l.dropWhile pyIsSpace).reverse.dropWhile pyIsSpace).reverse

/-- The comparison text of the whitespace-run claim, built per the
specification's words: every run of consecutive whitespace collapsed to a
single space, and leading/trailing whitespace removed. -/
def normalizeWS (s : String) : String :=
  String.mk (trimWS (collapseRuns s.data))

/-- A proper word: non-empty and containing no whitespace character.
Every element produced by `pySplit` has this shape. -/
def IsWord (w : String) : Prop :=
  w ≠ "" ∧ ∀ c ∈ w.data, pyIsSpace c = false

instance (w : String) : Decidable (IsWord w) := by
  unfold IsWord
  infer_instance

/-- A measure function that never shrinks when strings are joined with a
space: the measure of `a ++ " " ++ b` dominates the measures of both `a`
and `b`.  Every geometric string-width metric has this property. -/
def JoinMono (m : String → Int) : Prop :=
  ∀ a b : String, m a ≤ m (a ++ " " ++ b) ∧ m b ≤ m (a ++ " " ++ b)

/-! ### Basic string and `pySplit` lemmas -/

theorem str_empty_append (s : String) : "" ++ s = s := by
  cases s
  rfl

theorem str_mk_data (s : String) : String.mk s.data = s :=
  rfl

theorem str_data_eq_nil_iff (s : String) : s.data = [] ↔ s = "" := by
  constructor
  · intro h
    apply String.ext
    rw [h]
  · intro h
    rw [h]

theorem truncStep_length (text : String) (h : 3 < text.length) :
    (truncStep text).length = text.length - 1 := by
  have hd : text.length = text.data.length := rfl
  have e : (truncStep text).length = (text.data.take (text.length - 4)).length + 3 :=
    String.length_append (String.mk (text.data.take (text.length - 4))) "..."
  rw [e, List.length_take]
  omega

theorem splitAux_good : ∀ (l acc : List Char), (∀ c ∈ acc, pyIsSpace c = false) →
    ∀ w ∈ splitAux l acc, w ≠ [] ∧ ∀ c ∈ w, pyIsSpace c = false := by
  intro l
  induction l with
  | nil =>
    intro acc hacc w hw
    by_cases h : acc = []
    · simp [splitAux, h] at hw
    · rw [splitAux, if_neg h] at hw
      rcases List.mem_singleton.mp hw with rfl
      refine ⟨by simpa using h, fun c hc => hacc c (List.mem_reverse.mp hc)⟩
  | cons c cs ih =>
    intro acc hacc w hw
    rw [splitAux] at hw
    by_cases hc : pyIsSpace c
    · rw [if_pos hc] at hw
      by_cases h : acc = []
      · rw [if_pos h] at hw
        exact ih [] (by simp) w hw
      · rw [if_neg h] at hw
        rcases List.mem_cons.mp hw with rfl | hw
        · refine ⟨by simpa using h, fun d hd => hacc d (List.mem_reverse.mp hd)⟩
        · exact ih [] (by simp) w hw
    · rw [if_neg hc] at hw
      refine ih (c :: acc) ?_ w hw
      intro d hd
      rcases List.mem_cons.mp hd with rfl | hd
      · simpa using hc
      · exact hacc d hd

theorem pySplit_good (s : String) : ∀ w ∈ pySplit s, IsWord w := by
  intro w hw
  rcases List.mem_map.mp hw with ⟨lw, hlw, rfl⟩
  have h := splitAux_good s.data [] (by simp) lw hlw
  constructor
  · intro hcon
    exact h.1 ((str_data_eq_nil_iff (String.mk lw)).mpr hcon)
  · intro c hc
    exact h.2 c hc

theorem splitAux_append_space (l₂ : List Char) : ∀ (l₁ acc : List Char),
    splitAux (l₁ ++ ' ' :: l₂) acc = splitAux l₁ acc ++ splitAux l₂ [] := by
  have hsp : pyIsSpace ' ' = true := rfl
  intro l₁
  induction l₁ with
  | nil =>
    intro acc
    by_cases h : acc = [] <;> simp [splitAux, hsp, h]
  | cons c cs ih =>
    intro acc
    by_cases hc : pyIsSpace c
    · by_cases h : acc = [] <;> simp [splitAux, hc, h, ih]
    · simp [splitAux, hc, ih]

theorem splitAux_no_space : ∀ (l acc : List Char), l ≠ [] → (∀ c ∈ l, pyIsSpace c = false) →
    splitAux l acc = [acc.reverse ++ l] := by
  intro l
  induction l with
  | nil =>
    intro acc h _
    exact absurd rfl h
  | cons c cs ih =>
    intro acc _ hl
    have hc : pyIsSpace c = false := hl c (List.mem_cons_self c cs)
    by_cases hcs : cs = []
    · subst hcs
      simp [splitAux, hc]
    · rw [splitAux, if_neg (by simp [hc])]
      rw [ih (c :: acc) hcs (fun d hd => hl d (List.mem_cons_of_mem c hd))]
      simp

theorem splitAux_all_space : ∀ (l acc : List Char), (∀ c ∈ l, pyIsSpace c = true) →
    splitAux l acc = if acc = [] then [] else [acc.reverse] := by
  intro l
  induction l with
  | nil =>
    intro acc _
    rw [splitAux]
  | cons c cs ih =>
    intro acc hl
    have hc := hl c (List.mem_cons_self c cs)
    have hcs : ∀ d ∈ cs, pyIsSpace d = true := fun d hd => hl d (List.mem_cons_of_mem c hd)
    rw [splitAux, if_pos hc]
    by_cases h : acc = [] <;> simp [h, ih [] hcs]

theorem splitAux_append_trailing (t : List Char) (ht : ∀ c ∈ t, pyIsSpace c = true) :
    ∀ (l acc : List Char), splitAux (l ++ t) acc = splitAux l acc := by
  intro l
  induction l with
  | nil =>
    intro acc
    rw [List.nil_append, splitAux_all_space t acc ht, splitAux]
  | cons c cs ih =>
    intro acc
    by_cases hc : pyIsSpace c
    · by_cases h : acc = [] <;> simp [splitAux, hc, h, ih]
    · simp [splitAux, hc, ih]

theorem splitAux_dropWhile_leading : ∀ l : List Char,
    splitAux (l.dropWhile pyIsSpace) [] = splitAux l [] := by
  intro l
  induction l with
  | nil => rfl
  | cons c cs ih =>
    by_cases hc : pyIsSpace c
    · simp [List.dropWhile_cons, hc, splitAux, ih]
    · simp [List.dropWhile_cons, hc]

theorem splitAux_collapseAux : ∀ (l : List Char) (b : Bool) (acc : List Char),
    (b = true → acc = []) → splitAux (collapseAux b l) acc = splitAux l acc := by
  have hsp : pyIsSpace ' ' = true := rfl
  intro l
  induction l with
  | nil =>
    intro b acc _
    rfl
  | cons c cs ih =>
    intro b acc hba
    by_cases hc : pyIsSpace c
    · cases b with
      | true =>
        have hacc : acc = [] := hba rfl
        subst hacc
        have h1 : collapseAux true (c :: cs) = collapseAux true cs := by
          simp [collapseAux, hc]
        rw [h1, ih true [] (fun _ => rfl)]
        rw [splitAux, if_pos hc, if_pos rfl]
      | false =>
        have h1 : collapseAux false (c :: cs) = ' ' :: collapseAux true cs := by
          simp [collapseAux, hc]
        rw [h1, splitAux, if_pos hsp, splitAux, if_pos hc]
        by_cases h : acc = []
        · rw [if_pos h, if_pos h, ih true [] (fun _ => rfl)]
        · rw [if_neg h, if_neg h, ih true [] (fun _ => rfl)]
    · have h1 : collapseAux b (c :: cs) = c :: collapseAux false cs := by
        cases b <;> simp [collapseAux, hc]
      rw [h1, splitAux, if_neg (by simp [hc]), splitAux, if_neg (by simp [hc])]
      exact ih false (c :: acc) (by simp)

theorem pySplit_word (w : String) (h : IsWord w) : pySplit w = [w] := by
  have hd : w.data ≠ [] := fun hc => h.1 ((str_data_eq_nil_iff w).mp hc)
  unfold pySplit
  rw [splitAux_no_space w.data [] hd h.2]
  simp [str_mk_data]

theorem pySplit_space_append (a w : String) (h : IsWord w) :
    pySplit (a ++ " " ++ w) = pySplit a ++ [w] := by
  have hdata : (a ++ " " ++ w).data = a.data ++ ' ' :: w.data := by
    rw [String.data_append, String.data_append]
    simp [show (" " : String).data = [' '] from rfl]
  unfold pySplit
  rw [hdata, splitAux_append_space, List.map_append]
  congr 1
  have hw := pySplit_word w h
  unfold pySplit at hw
  exact hw

theorem pySplit_empty : pySplit "" = [] :=
  rfl

theorem pySplit_normalizeWS (s : String) : pySplit (normalizeWS s) = pySplit s := by
  unfold pySplit normalizeWS
  have hdat : (String.mk (trimWS (collapseRuns s.data))).data = trimWS (collapseRuns s.data) :=
    rfl
  rw [hdat]
  congr 1
  set A := (collapseRuns s.data).dropWhile pyIsSpace with hA
  have hsplit : A = trimWS (collapseRuns s.data) ++ (A.reverse.takeWhile pyIsSpace).reverse := by
    unfold trimWS
    rw [← hA, ← List.reverse_append, List.takeWhile_append_dropWhile, List.reverse_reverse]
  have ht : ∀ c ∈ (A.reverse.takeWhile pyIsSpace).reverse, pyIsSpace c = true := by
    intro c hcmem
    exact List.mem_takeWhile_imp (List.mem_reverse.mp hcmem)
  calc splitAux (trimWS (collapseRuns s.data)) []
      = splitAux (trimWS (collapseRuns s.data) ++ (A.reverse.takeWhile pyIsSpace).reverse) [] :=
        (splitAux_append_trailing _ ht _ []).symm
    _ = splitAux A [] := by rw [← hsplit]
    _ = splitAux (collapseRuns s.data) [] := splitAux_dropWhile_leading _
    _ = splitAux s.data [] := splitAux_collapseAux s.data false [] (by simp)

/-! ### Unfolding equations and invariants of the wrapping loop -/

theorem wrapWords_nil (m : String → Int) (W : Int) (cur : String) :
    wrapWords m W [] cur = if cur = "" then [] else [cur] := by
  rw [wrapWords]

theorem wrapWords_cons (m : String → Int) (W : Int) (w : String) (ws : List String)
    (cur : String) :
    wrapWords m W (w :: ws) cur =
      if m (cur ++ (if cur = "" then "" else " ") ++ w) ≤ W then
        wrapWords m W ws (cur ++ (if cur = "" then "" else " ") ++ w)
      else if cur = "" then wrapWords m W ws w
      else cur :: wrapWords m W ws w := by
  rw [wrapWords]

theorem wrapWords_cons_empty (m : String → Int) (W : Int) (w : String) (ws : List String) :
    wrapWords m W (w :: ws) "" = wrapWords m W ws w := by
  have he : ("" : String) ++ (if ("" : String) = "" then "" else " ") ++ w = w := by
    cases w
    rfl
  simp [wrapWords_cons, he]

theorem drawLines_fst_map (x leading : Int) : ∀ (ls : List String) (y : Int),
    ((drawLines x leading ls y).1).map (fun p => p.1) = ls := by
  intro ls
  induction ls with
  | nil =>
    intro y
    rfl
  | cons a rest ih =>
    intro y
    simp [drawLines, ih]

theorem drawLines_length (x leading : Int) : ∀ (ls : List String) (y : Int),
    (drawLines x leading ls y).1.length = ls.length := by
  intro ls
  induction ls with
  | nil =>
    intro y
    rfl
  | cons a rest ih =>
    intro y
    simp [drawLines, ih]

theorem drawLines_snd (x leading : Int) : ∀ (ls : List String) (y : Int),
    (drawLines x leading ls y).2 = y - leading * ls.length := by
  intro ls
  induction ls with
  | nil =>
    intro y
    simp [drawLines]
  | cons a rest ih =>
    intro y
    simp only [drawLines, ih, List.length_cons]
    push_cast
    ring

theorem drawLines_getD (x leading : Int) : ∀ (ls : List String) (y : Int) (k : Nat),
    k < ls.length →
    (drawLines x leading ls y).1.getD k ("", 0, 0) = (ls.getD k "", x, y - leading * k) := by
  intro ls
  induction ls with
  | nil =>
    intro y k hk
    simp at hk
  | cons a rest ih =>
    intro y k hk
    cases k with
    | zero => simp [drawLines]
    | succ k =>
      simp only [drawLines, List.getD_cons_succ]
      rw [ih (y - leading) k (by simpa using hk)]
      simp only [Prod.mk.injEq, true_and]
      push_cast
      ring

theorem outLines_draw (m : String → Int) (t : String) (x y W leading : Int) :
    outLines (draw_wrapped_text m t x y W leading) = wrapLines m W t := by
  simp [outLines, draw_wrapped_text, drawLines_fst_map]

theorem endY_draw (m : String → Int) (t : String) (x y W leading : Int) :
    (draw_wrapped_text m t x y W leading).endY = y - leading * (wrapLines m W t).length := by
  simp [draw_wrapped_text, drawLines_snd]

theorem wrapWords_lineWords (m : String → Int) (W : Int) :
    ∀ (ws : List String) (cur : String), (∀ w ∈ ws, IsWord w) →
      lineWords (wrapWords m W ws cur) = pySplit cur ++ ws := by
  intro ws
  induction ws with
  | nil =>
    intro cur _
    by_cases hc : cur = ""
    · subst hc
      simp [wrapWords_nil, lineWords, pySplit_empty]
    · simp [wrapWords_nil, hc, lineWords]
  | cons w ws ih =>
    intro cur hws
    have hw : IsWord w := hws w (List.mem_cons_self w ws)
    have hws' : ∀ v ∈ ws, IsWord v := fun v hv => hws v (List.mem_cons_of_mem w hv)
    by_cases hc : cur = ""
    · subst hc
      rw [wrapWords_cons_empty, ih w hws', pySplit_word w hw]
      simp [pySplit_empty]
    · rw [wrapWords_cons]
      have hsep : cur ++ (if cur = "" then "" else " ") ++ w = cur ++ " " ++ w := by
        rw [if_neg hc]
      rw [hsep]
      by_cases hm : m (cur ++ " " ++ w) ≤ W
      · rw [if_pos hm, ih _ hws', pySplit_space_append cur w hw]
        simp
      · rw [if_neg hm, if_neg hc]
        have hcons : lineWords (cur :: wrapWords m W ws w) =
            pySplit cur ++ lineWords (wrapWords m W ws w) := by
          simp [lineWords]
        rw [hcons, ih w hws', pySplit_word w hw]
        simp

theorem wrapWords_width_inv (m : String → Int) (W : Int) :
    ∀ (ws : List String) (cur : String), (∀ w ∈ ws, IsWord w) →
      ((pySplit cur).length ≤ 1 ∨ m cur ≤ W) →
      ∀ l ∈ wrapWords m W ws cur, (pySplit l).length ≤ 1 ∨ m l ≤ W := by
  intro ws
  induction ws with
  | nil =>
    intro cur _ hcur l hl
    rw [wrapWords_nil] at hl
    by_cases hc : cur = ""
    · simp [hc] at hl
    · rw [if_neg hc] at hl
      rcases List.mem_singleton.mp hl with rfl
      exact hcur
  | cons w ws ih =>
    intro cur hws hcur l hl
    have hw : IsWord w := hws w (List.mem_cons_self w ws)
    have hws' : ∀ v ∈ ws, IsWord v := fun v hv => hws v (List.mem_cons_of_mem w hv)
    have hwone : (pySplit w).length ≤ 1 ∨ m w ≤ W := by
      left
      rw [pySplit_word w hw]
      simp
    by_cases hc : cur = ""
    · subst hc
      rw [wrapWords_cons_empty] at hl
      exact ih w hws' hwone l hl
    · rw [wrapWords_cons] at hl
      simp only [if_neg hc] at hl
      by_cases hm : m (cur ++ " " ++ w) ≤ W
      · rw [if_pos hm] at hl
        exact ih _ hws' (Or.inr hm) l hl
      · rw [if_neg hm] at hl
        rcases List.mem_cons.mp hl with rfl | hl
        · exact hcur
        · exact ih w hws' hwone l hl

theorem wrapWords_mem_self (m : String → Int) (W : Int) (hmono : JoinMono m)
    (cur : String) (hc : cur ≠ "") (hover : W < m cur) :
    ∀ ws : List String, cur ∈ wrapWords m W ws cur := by
  intro ws
  cases ws with
  | nil =>
    rw [wrapWords_nil, if_neg hc]
    exact List.mem_singleton.mpr rfl
  | cons b rest =>
    rw [wrapWords_cons]
    simp only [if_neg hc]
    have hnm : ¬ m (cur ++ " " ++ b) ≤ W := by
      have := (hmono cur b).1
      omega
    rw [if_neg hnm]
    exact List.mem_cons_self _ _

theorem wrapWords_overlong (m : String → Int) (W : Int) (hmono : JoinMono m) :
    ∀ (ws : List String) (cur : String), ∀ w ∈ ws, W < m w → IsWord w →
      w ∈ wrapWords m W ws cur := by
  intro ws
  induction ws with
  | nil =>
    intro cur w hw
    exact absurd hw (List.not_mem_nil w)
  | cons a rest ih =>
    intro cur w hw hover hword
    rcases List.mem_cons.mp hw with rfl | hwrest
    · by_cases hc : cur = ""
      · subst hc
        rw [wrapWords_cons_empty]
        exact wrapWords_mem_self m W hmono w hword.1 hover rest
      · rw [wrapWords_cons]
        simp only [if_neg hc]
        have hnm : ¬ m (cur ++ " " ++ w) ≤ W := by
          have := (hmono cur w).2
          omega
        rw [if_neg hnm]
        exact List.mem_cons_of_mem cur (wrapWords_mem_self m W hmono w hword.1 hover rest)
    · by_cases hc : cur = ""
      · subst hc
        rw [wrapWords_cons_empty]
        exact ih a w hwrest hover hword
      · rw [wrapWords_cons]
        simp only [if_neg hc]
        by_cases hm : m (cur ++ " " ++ a) ≤ W
        · rw [if_pos hm]
          exact ih _ w hwrest hover hword
        · rw [if_neg hm]
          exact List.mem_cons_of_mem cur (ih a w hwrest hover hword)

theorem wrapWords_one_per_line (m : String → Int) (W : Int) (hW : W ≤ 0) (S : List String)
    (hSw : ∀ w ∈ S, IsWord w) (hSj : ∀ a ∈ S, ∀ b ∈ S, 0 < m (a ++ " " ++ b)) :
    ∀ (ws : List String) (cur : String), (∀ w ∈ ws, w ∈ S) → cur ∈ S →
      wrapWords m W ws cur = cur :: ws := by
  intro ws
  induction ws with
  | nil =>
    intro cur _ hcur
    rw [wrapWords_nil, if_neg (hSw cur hcur).1]
  | cons b rest ih =>
    intro cur hsub hcur
    have hb : b ∈ S := hsub b (List.mem_cons_self b rest)
    have hc : cur ≠ "" := (hSw cur hcur).1
    rw [wrapWords_cons]
    simp only [if_neg hc]
    have hnm : ¬ m (cur ++ " " ++ b) ≤ W := by
      have := hSj cur hcur b hb
      omega
    rw [if_neg hnm]
    rw [ih b (fun v hv => hsub v (List.mem_cons_of_mem b hv)) hb]

theorem wrapLines_degenerate (m : String → Int) (W : Int) (t : String) (hW : W ≤ 0)
    (hj : ∀ a ∈ pySplit t, ∀ b ∈ pySplit t, 0 < m (a ++ " " ++ b)) :
    wrapLines m W t = pySplit t := by
  unfold wrapLines
  rcases hsplit : pySplit t with _ | ⟨w0, ws⟩
  · rw [wrapWords_nil]
    simp
  · rw [wrapWords_cons_empty]
    have hw0 : w0 ∈ pySplit t := by
      rw [hsplit]
      exact List.mem_cons_self _ _
    rw [hsplit] at hj
    exact wrapWords_one_per_line m W hW (w0 :: ws)
      (by rw [← hsplit]; exact pySplit_good t) hj ws w0
      (fun v hv => List.mem_cons_of_mem w0 hv) (List.mem_cons_self _ _)

theorem truncateText_post (m : String → Int) (W : Int) :
    ∀ (n : Nat) (text : String), text.length ≤ n →
      m (truncateText m W text) ≤ W ∨ (truncateText m W text).length ≤ 3 := by
  intro n
  induction n with
  | zero =>
    intro t ht
    rw [truncateText, dif_neg (by intro hcon; omega)]
    right
    omega
  | succ k ih =>
    intro t ht
    rw [truncateText]
    by_cases h : W < m t ∧ 3 < t.length
    · rw [dif_pos h]
      exact ih (truncStep t) (by rw [truncStep_length t h.2]; omega)
    · rw [dif_neg h]
      rcases not_and_or.mp h with h1 | h2
      · left
        omega
      · right
        omega

theorem lenMeasure_joinMono : JoinMono lenMeasure := by
  intro a b
  unfold lenMeasure
  rw [String.length_append, String.length_append]
  have h1 : (" " : String).length = 1 := rfl
  rw [h1]
  refine ⟨?_, ?_⟩ <;> (push_cast; omega)

/-! ### Claims -/

/-- C1: Word conservation — for every input text, width, and pure measure
function, concatenating the whitespace-split words of all lines drawn by
`draw_wrapped_text`, in order, reproduces exactly the word sequence
obtained by whitespace-splitting the input; so every word lands in exactly
one output line, in original order, and no word is split. -/
theorem wrap_word_conservation (m : String → Int) (t : String) (x y W leading : Int) :
    lineWords (outLines (draw_wrapped_text m t x y W leading)) = pySplit t := by
  rw [outLines_draw]
  unfold wrapLines
  rw [wrapWords_lineWords m W (pySplit t) "" (pySplit_good t)]
  simp [pySplit_empty]

/-- C2: Width bound — for every input text, every max width, and every pure
measure function, every line drawn by `draw_wrapped_text` that consists of
more than one word measures at most the max width. -/
theorem wrap_width_bound (m : String → Int) (t : String) (x y W leading : Int) :
    ∀ l ∈ outLines (draw_wrapped_text m t x y W leading), 1 < (pySplit l).length → m l ≤ W := by
  intro l hl hlen
  rw [outLines_draw] at hl
  unfold wrapLines at hl
  have hinv := wrapWords_width_inv m W (pySplit t) "" (pySplit_good t)
    (by left; simp [pySplit_empty]) l hl
  rcases hinv with h1 | h2
  · omega
  · exact h2

theorem wrap_width_bound_witness :
    "a b" ∈ outLines (draw_wrapped_text lenMeasure "a b" 0 100 5 14) ∧ lenMeasure "a b" ≤ 5 :=
  ⟨by decide, wrap_width_bound lenMeasure "a b" 0 100 5 14 "a b" (by decide) (by decide)⟩

/-- C3 counterexample: the claim quantifies over every measure function, but
under `spikeMeasure` (width 100 on the single word `"b"`, width 1 on
everything else, so not join-monotone) the word `"b"` measures over the max
width 10, yet no output line of `draw_wrapped_text` equals `"b"`: the line
`"a b"` absorbs it because the joined candidate measures only 1. -/
theorem wrap_overlong_cex :
    "b" ∈ pySplit "a b" ∧ 10 < spikeMeasure "b" ∧
      "b" ∉ outLines (draw_wrapped_text spikeMeasure "a b" 0 100 10 14) := by
  decide

/-- C3 (amended): for every input text and every join-monotone measure
function (the measure of a space-join is at least the measure of each
part), any word whose measured width alone exceeds the max width appears in
the output of `draw_wrapped_text` alone on its own line, unmodified. -/
theorem wrap_overlong_word_alone (m : String → Int) (t : String) (x y W leading : Int)
    (hmono : JoinMono m) :
    ∀ w ∈ pySplit t, W < m w → w ∈ outLines (draw_wrapped_text m t x y W leading) := by
  intro w hw hover
  rw [outLines_draw]
  unfold wrapLines
  exact wrapWords_overlong m W hmono (pySplit t) "" w hw hover (pySplit_good t w hw)

theorem wrap_overlong_word_alone_witness :
    "abcd" ∈ pySplit "abcd ef" ∧ 2 < lenMeasure "abcd" ∧
      "abcd" ∈ outLines (draw_wrapped_text lenMeasure "abcd ef" 0 100 2 14) :=
  ⟨by decide, by decide,
    wrap_overlong_word_alone lenMeasure "abcd ef" 0 100 2 14 lenMeasure_joinMono "abcd"
      (by decide) (by decide)⟩

/-- C4: Cursor arithmetic — `draw_wrapped_text` draws line `k` at the
vertical position `start_y - k * line_height` (and horizontal position
`start_x`), and returns `end_y = start_y - line_height * number_of_lines`. -/
theorem wrap_cursor_arithmetic (m : String → Int) (t : String) (x y W leading : Int) :
    (∀ k : Nat, k < (draw_wrapped_text m t x y W leading).placed.length →
      (draw_wrapped_text m t x y W leading).placed.getD k ("", 0, 0) =
        ((wrapLines m W t).getD k "", x, y - leading * (k : Int))) ∧
    (draw_wrapped_text m t x y W leading).endY =
      y - leading * ((draw_wrapped_text m t x y W leading).placed.length : Int) := by
  have hlen : (draw_wrapped_text m t x y W leading).placed.length = (wrapLines m W t).length := by
    show (drawLines x leading (wrapLines m W t) y).1.length = _
    exact drawLines_length x leading (wrapLines m W t) y
  constructor
  · intro k hk
    show (drawLines x leading (wrapLines m W t) y).1.getD k ("", 0, 0) = _
    exact drawLines_getD x leading (wrapLines m W t) y k (by rw [hlen] at hk; exact hk)
  · rw [endY_draw, hlen]

theorem wrap_cursor_arithmetic_witness :
    (draw_wrapped_text lenMeasure "aa bb" 5 100 2 14).placed.getD 1 ("", 0, 0) =
      ((wrapLines lenMeasure 2 "aa bb").getD 1 "", 5, 100 - 14 * ((1 : Nat) : Int)) ∧
    (draw_wrapped_text lenMeasure "aa bb" 5 100 2 14).endY =
      100 - 14 * (((draw_wrapped_text lenMeasure "aa bb" 5 100 2 14).placed.length : Nat) : Int) :=
  ⟨(wrap_cursor_arithmetic lenMeasure "aa bb" 5 100 2 14).1 1 (by decide),
   (wrap_cursor_arithmetic lenMeasure "aa bb" 5 100 2 14).2⟩

/-- C5: Worked example — for the text `"the quick brown fox"` under any
measure where every single word and every adjacent two-word join fits but
no three-word join does, with `line_height = 14` and `start_y = 100`,
`draw_wrapped_text` draws exactly the lines `["the quick", "brown fox"]`
and returns `end_y = 72`. -/
theorem wrap_worked_example (m : String → Int) (x W : Int)
    (h1 : m "the" ≤ W) (h2 : m "quick" ≤ W) (h3 : m "brown" ≤ W) (h4 : m "fox" ≤ W)
    (h5 : m "the quick" ≤ W) (h6 : m "quick brown" ≤ W) (h7 : m "brown fox" ≤ W)
    (h8 : W < m "the quick brown") (h9 : W < m "quick brown fox") :
    outLines (draw_wrapped_text m "the quick brown fox" x 100 W 14) =
      ["the quick", "brown fox"] ∧
    (draw_wrapped_text m "the quick brown fox" x 100 W 14).endY = 72 := by
  have hsplit : pySplit "the quick brown fox" = ["the", "quick", "brown", "fox"] := rfl
  have hlines : wrapLines m W "the quick brown fox" = ["the quick", "brown fox"] := by
    unfold wrapLines
    rw [hsplit, wrapWords_cons_empty, wrapWords_cons]
    have e1 : ("the" : String) ++ (if ("the" : String) = "" then "" else " ") ++ "quick" =
        "the quick" := rfl
    rw [e1, if_pos h5, wrapWords_cons]
    have e2 : ("the quick" : String) ++
        (if ("the quick" : String) = "" then "" else " ") ++ "brown" = "the quick brown" := rfl
    rw [e2, if_neg (by omega : ¬ m "the quick brown" ≤ W)]
    rw [if_neg (by decide : ¬ ("the quick" : String) = "")]
    rw [wrapWords_cons]
    have e3 : ("brown" : String) ++ (if ("brown" : String) = "" then "" else " ") ++ "fox" =
        "brown fox" := rfl
    rw [e3, if_pos h7, wrapWords_nil]
    rw [if_neg (by decide : ¬ ("brown fox" : String) = "")]
  refine ⟨?_, ?_⟩
  · rw [outLines_draw, hlines]
  · rw [endY_draw, hlines]
    norm_num

theorem wrap_worked_example_witness :
    outLines (draw_wrapped_text lenMeasure "the quick brown fox" 0 100 11 14) =
      ["the quick", "brown fox"] ∧
    (draw_wrapped_text lenMeasure "the quick brown fox" 0 100 11 14).endY = 72 :=
  wrap_worked_example lenMeasure 0 11 (by decide) (by decide) (by decide) (by decide)
    (by decide) (by decide) (by decide) (by decide) (by decide)

/-- C6: Empty and whitespace-only input — for every text whose characters
are all whitespace (including the empty string), `draw_wrapped_text` draws
zero lines and returns `end_y = start_y`. -/
theorem wrap_whitespace_only (m : String → Int) (t : String) (x y W leading : Int)
    (hws : ∀ c ∈ t.data, pyIsSpace c = true) :
    outLines (draw_wrapped_text m t x y W leading) = [] ∧
    (draw_wrapped_text m t x y W leading).endY = y := by
  have hsplit : pySplit t = [] := by
    unfold pySplit
    rw [splitAux_all_space t.data [] hws]
    simp
  have hlines : wrapLines m W t = [] := by
    unfold wrapLines
    rw [hsplit, wrapWords_nil, if_pos rfl]
  refine ⟨?_, ?_⟩
  · rw [outLines_draw, hlines]
  · rw [endY_draw, hlines]
    simp

theorem wrap_whitespace_only_witness :
    outLines (draw_wrapped_text lenMeasure " \t " 0 50 10 14) = [] ∧
      (draw_wrapped_text lenMeasure " \t " 0 50 10 14).endY = 50 :=
  wrap_whitespace_only lenMeasure " \t " 0 50 10 14 (by decide)

/-- C7: Whitespace-run normalization — `draw_wrapped_text` produces the
same drawn lines, positions, and final cursor on a text as on the text with
every run of consecutive whitespace collapsed to a single space and
leading/trailing whitespace removed. -/
theorem wrap_whitespace_normalization (m : String → Int) (t : String) (x y W leading : Int) :
    draw_wrapped_text m (normalizeWS t) x y W leading = draw_wrapped_text m t x y W leading := by
  unfold draw_wrapped_text wrapLines
  rw [pySplit_normalizeWS]

/-- C8 counterexample: the claim asks only that every word have positive
measured width, but under `dipMeasure` (width 1 on both words of `"a b"`,
negative width on their join) and `max_width = 0`, `draw_wrapped_text`
emits the two-word line `"a b"`, not one word per line. -/
theorem wrap_degenerate_cex :
    (0 : Int) ≤ 0 ∧ (∀ w ∈ pySplit "a b", 0 < dipMeasure w) ∧
      ¬ (∀ l ∈ outLines (draw_wrapped_text dipMeasure "a b" 0 100 0 14),
          (pySplit l).length = 1) := by
  decide

/-- C8 (amended): for every `max_width ≤ 0` and every input text whose
every word has positive measured width and whose every space-join of two
input words also has positive measured width, `draw_wrapped_text` places
exactly one word per output line: the drawn lines are exactly the words of
the text, in order. -/
theorem wrap_degenerate_one_per_line (m : String → Int) (t : String) (x y W leading : Int)
    (hW : W ≤ 0) (hpos : ∀ w ∈ pySplit t, 0 < m w)
    (hj : ∀ a ∈ pySplit t, ∀ b ∈ pySplit t, 0 < m (a ++ " " ++ b)) :
    outLines (draw_wrapped_text m t x y W leading) = pySplit t := by
  rw [outLines_draw]
  exact wrapLines_degenerate m W t hW hj

theorem wrap_degenerate_one_per_line_witness :
    outLines (draw_wrapped_text lenMeasure "a b" 0 100 0 14) = pySplit "a b" :=
  wrap_degenerate_one_per_line lenMeasure "a b" 0 100 0 14 (by decide) (by decide) (by decide)

/-- C9: Determinism and statelessness — `draw_wrapped_text` is a pure
function of its arguments: two calls with the same text, position, width,
leading, and pointwise-equal measure functions produce identical drawn
lines and identical final cursors; no state is carried across calls. -/
theorem wrap_deterministic (m₁ m₂ : String → Int) (t : String) (x y W leading : Int)
    (hm : ∀ s, m₁ s = m₂ s) :
    draw_wrapped_text m₁ t x y W leading = draw_wrapped_text m₂ t x y W leading := by
  have hfun : m₁ = m₂ := funext hm
  rw [hfun]

theorem wrap_deterministic_witness :
    draw_wrapped_text lenMeasure "a b" 0 100 5 14 = draw_wrapped_text lenMeasure "a b" 0 100 5 14 :=
  wrap_deterministic lenMeasure lenMeasure "a b" 0 100 5 14 (fun _ => rfl)

/-- C10: Truncation loop of `draw_text` — each iteration runs only on a
string longer than three characters and shrinks it by exactly one
character (dropping four, appending `"..."`), so the loop terminates (the
model `truncateText` is a total function), and the string finally drawn
either measures at most `max_width` or has length at most three. -/
theorem draw_text_truncation_terminates (m : String → Int) (W : Int) (text : String) :
    (3 < text.length → (truncStep text).length = text.length - 1) ∧
    (m (truncateText m W text) ≤ W ∨ (truncateText m W text).length ≤ 3) :=
  ⟨fun h => truncStep_length text h, truncateText_post m W text.length text (le_refl _)⟩

theorem draw_text_truncation_terminates_witness :
    (truncStep "abcdef").length = "abcdef".length - 1 ∧
    (lenMeasure (truncateText lenMeasure 2 "abcdef") ≤ 2 ∨
      (truncateText lenMeasure 2 "abcdef").length ≤ 3) :=
  ⟨(draw_text_truncation_terminates lenMeasure 2 "abcdef").1 (by decide),
   (draw_text_truncation_terminates lenMeasure 2 "abcdef").2⟩
